import Mathlib

/-!
Shallow embedding of the terraform-index core indexing engine
(package `index`, version 1.2.0): the Index accumulator, the declaration
classifier, the reference resolver and the position translators, together
with proofs about them.

Go `int` fields are modelled as `Int`; Go slices as `List`; the Go map
`References` as an insertion-ordered association list with Go's
zero-value-on-missing-key lookup semantics; Go `panic` (out-of-range slice
indexing) as `Option` (`none` = crash); the two external parsers
(`hcl.ParseBytes` and `hil.ParseWithPosition`) as function parameters
returning `Except`.  The Go struct field `Type` is rendered `Typ`
(`Type` is reserved in Lean).
-/

/-- hcl/hcl/token.Pos. -/
structure HclPos where
  Filename : String
  Offset : Int
  Line : Int
  Column : Int
deriving Repr, DecidableEq

/-- hil/ast.Pos. -/
structure HilPos where
  Column : Int
  Line : Int
  Filename : String
deriving Repr, DecidableEq

/-- hcl/hcl/token.Token (the fields the engine reads).  `Typ` is the
token-type tag; the identifier token type IDENT has numeric value 4,
which is what `handleObjectList` compares against. -/
structure Token where
  Typ : Int
  Pos : HclPos
  Text : String
deriving Repr, DecidableEq

/-- The Go zero value of token.Pos (what an unset Location field holds). -/
def zeroPos : HclPos := { Filename := "", Offset := 0, Line := 0, Column := 0 }

/-- index.UntypedSection. -/
structure UntypedSection where
  Name : String
  Location : HclPos
  Documentation : List String
deriving Repr, DecidableEq

/-- index.TypedSection. -/
structure TypedSection where
  Typ : String
  Name : String
  Location : HclPos
  Documentation : List String
deriving Repr, DecidableEq

/-- index.ReferenceList. -/
structure ReferenceList where
  Name : String
  Typ : String
  Path : String
  Locations : List HclPos
deriving Repr, DecidableEq

/-- index.Error. -/
structure Error where
  Message : String
  Location : HclPos
deriving Repr, DecidableEq

/-- The Go zero value of ReferenceList: what `index.References[name]`
yields when `name` is absent from the map. -/
def emptyRefList : ReferenceList := { Name := "", Typ := "", Path := "", Locations := [] }

/-- The `References` Go map, as an insertion-ordered association list. -/
abbrev RefMap := List (String × ReferenceList)

/-- Go map read `m[k]`: the stored value, or the zero value when absent. -/
def lookupRef (m : RefMap) (k : String) : ReferenceList :=
  match m with
  | [] => emptyRefList
  | (k', v') :: rest => if k' = k then v' else lookupRef rest k

/-- Whether key `k` is present in the map. -/
def containsRef (m : RefMap) (k : String) : Bool :=
  match m with
  | [] => false
  | (k', _) :: rest => if k' = k then true else containsRef rest k

/-- Go map write `m[k] = v`: overwrite in place, or append when absent. -/
def insertRef (m : RefMap) (k : String) (v : ReferenceList) : RefMap :=
  match m with
  | [] => [(k, v)]
  | (k', v') :: rest => if k' = k then (k, v) :: rest else (k', v') :: insertRef rest k v

/- The HCL syntax tree shapes the engine consumes: ObjectList, ObjectType
(whose `List` field is an ObjectList, inlined here as its item list),
LiteralType and ListType; an ObjectItem holds its key tokens
(`ObjectKey.Token` inlined), its optional value node and the texts of its
leading comment group (`none` when the group pointer is nil). -/
mutual
inductive HclNode where
  | objectList (items : List ObjectItem)
  | objectType (items : List ObjectItem)
  | literalType (tok : Token)
  | listType (nodes : List HclNode)
inductive ObjectItem where
  | mk (Keys : List Token) (Val : Option HclNode) (LeadComment : Option (List String))
end

def ObjectItem.Keys : ObjectItem → List Token
  | .mk ks _ _ => ks

def ObjectItem.Val : ObjectItem → Option HclNode
  | .mk _ v _ => v

def ObjectItem.LeadComment : ObjectItem → Option (List String)
  | .mk _ _ c => c

/-- hcl/hcl/ast.File (the engine only reads `Node`). -/
structure HclFile where
  Node : HclNode

/-- The expression (hil) syntax tree as the resolver sees it: a
VariableAccess leaf carrying its dotted name and position, or any other
node kind (Call, Output, Arithmetic, ...) carrying its children. -/
inductive HilNode where
  | variableAccess (Name : String) (Posx : HilPos)
  | internal (children : List HilNode)

/-- Errors returned by hcl.ParseBytes: either a *hclparser.PosError or
any other error value. -/
inductive GoHclErr where
  | posError (msg : String) (pos : HclPos)
  | plain (msg : String)
deriving Repr, DecidableEq

/-- Errors returned by hil.ParseWithPosition: either a
*hilparser.ParseError (message + position) or any other error value. -/
inductive HilErr where
  | parseError (Message : String) (Pos : HilPos)
  | otherErr (msg : String)
deriving Repr, DecidableEq

/-- The external expression parser, hil.ParseWithPosition. -/
abbrev HilParse := String → HilPos → Except HilErr HilNode

/-- The external configuration parser, hcl.ParseBytes. -/
abbrev HclParse := String → Except GoHclErr HclFile

/-- index.Index. -/
structure Index where
  Version : String
  Errors : List Error
  Variables : List UntypedSection
  DefaultProviders : List UntypedSection
  Providers : List TypedSection
  Resources : List TypedSection
  DataResources : List TypedSection
  Modules : List UntypedSection
  Outputs : List UntypedSection
  References : RefMap
  RawAst : Option HclFile

def INDEX_VERSION : String := "1.2.0"

/-- index.NewIndex. -/
def NewIndex : Index :=
  { Version := INDEX_VERSION
    Errors := []
    Variables := []
    DefaultProviders := []
    Providers := []
    Resources := []
    DataResources := []
    Modules := []
    Outputs := []
    References := []
    RawAst := none }

/-- index.makeError: a *hclparser.PosError keeps its message and position;
any other error keeps its message with the zero position.  (The `path`
argument is accepted and ignored, as in the source.) -/
def makeError (err : GoHclErr) (path : String) : Error :=
  match err with
  | .posError m p => { Message := m, Location := p }
  | .plain m => { Message := m, Location := zeroPos }

/-- index.getText: strings.Trim(t.Text, "\""). -/
def getText (t : Token) : String :=
  String.mk (((t.Text.toList.dropWhile (· == '"')).reverse.dropWhile (· == '"')).reverse)

/-- index.getPos: the token's position with Filename stamped to `path`. -/
def getPos (t : Token) (path : String) : HclPos :=
  { t.Pos with Filename := path }

/-- index.commentGroup: nil gives the empty list, otherwise the group's
non-empty comment texts in order. -/
def commentGroup (group : Option (List String)) : List String :=
  match group with
  | none => []
  | some l => l.filter (fun c => c ≠ "")

/-- index.toHilPos. -/
def toHilPos (pos : HclPos) : HilPos :=
  { Column := pos.Column, Line := pos.Line, Filename := pos.Filename }

/-- index.toHclPos. -/
def toHclPos (pos : HilPos) : HclPos :=
  { Column := pos.Column, Line := pos.Line, Filename := pos.Filename, Offset := 0 }

/-- index.toHclPosWithPath. -/
def toHclPosWithPath (pos : HilPos) (path : String) : HclPos :=
  { toHclPos pos with Filename := path }

/-- strings.SplitN(s, sep, n+1) on character lists: at most `n` splits,
the final part keeping the unsplit remainder. -/
def splitUpto (n : Nat) (sep : Char) (cs : List Char) : List (List Char) :=
  match n with
  | 0 => [cs]
  | Nat.succ k =>
    match cs.dropWhile (· ≠ sep) with
    | [] => [cs]
    | _ :: after => cs.takeWhile (· ≠ sep) :: splitUpto k sep after

/-- The parts of a dotted reference: strings.SplitN(reference, ".", 3). -/
def refParts (reference : String) : List String :=
  (splitUpto 2 '.' reference.toList).map String.mk

/-- index.addReference: split the dotted reference into at most three
parts; with fewer than two parts, warn (stderr only) and change nothing;
otherwise upsert the ReferenceList keyed by the second part, setting Name
and Typ unconditionally (`var` canonicalized to `variable`), setting Path
only when a third part exists, and appending the position. -/
def addReference (index : Index) (reference : String) (pos : HclPos) : Index :=
  match refParts reference with
  | p0 :: p1 :: rest =>
    let name := p1
    let l0 := lookupRef index.References name
    let l1 := { l0 with Name := name }
    let l2 := { l1 with Typ := if p0 == "var" then "variable" else p0 }
    let l3 := match rest with
      | p2 :: _ => { l2 with Path := p2 }
      | [] => l2
    let l4 := { l3 with Locations := l3.Locations ++ [pos] }
    { index with References := insertRef index.References name l4 }
  | _ => index

/- The VariableAccess nodes reached by root.Accept, in traversal order
(children left to right; only leaves are accesses). -/
mutual
def hilAccesses : HilNode → List (String × HilPos)
  | .variableAccess name pos => [(name, pos)]
  | .internal children => hilAccessesList children
def hilAccessesList : List HilNode → List (String × HilPos)
  | [] => []
  | n :: rest => hilAccesses n ++ hilAccessesList rest
end

/-- index.handleLiteral: parse the literal's text with the expression
parser, starting at the literal's own (translated, un-stamped) position.
A *hilparser.ParseError appends an Error at the translated error position;
any other parse error appends an Error at the literal's raw position;
on success every VariableAccess is added as a reference at its translated,
path-stamped position. -/
def handleLiteral (hp : HilParse) (index : Index) (tok : Token) (path : String) : Index :=
  match hp tok.Text (toHilPos tok.Pos) with
  | .error (.parseError m p) =>
    { index with Errors := index.Errors ++ [{ Message := m, Location := toHclPos p }] }
  | .error (.otherErr m) =>
    { index with Errors := index.Errors ++ [{ Message := m, Location := tok.Pos }] }
  | .ok root =>
    (hilAccesses root).foldl
      (fun idx np => addReference idx np.1 (toHclPosWithPath np.2 path)) index

/-- index.extractPropertyValue: succeeds only when the item's value is an
ObjectType containing an item whose first key's trimmed text equals
`property` and whose value is a LiteralType; returns that literal's
trimmed text (first match wins; items with no keys, other keys, or
non-literal values are passed over). -/
def findProp (items : List ObjectItem) (property : String) : Option String :=
  match items with
  | [] => none
  | it :: rest =>
    match it.Keys with
    | [] => findProp rest property
    | k :: _ =>
      if getText k ≠ property then findProp rest property
      else
        match it.Val with
        | some (.literalType tok) => some (getText tok)
        | _ => findProp rest property

def extractPropertyValue (item : ObjectItem) (property : String) : Option String :=
  match item.Val with
  | some (.objectType items) => findProp items property
  | _ => none

/-- index.extractResourceDeclaration.  Go indexes Keys[1] and Keys[2]
unconditionally; `none` models the out-of-range panic. -/
def extractResourceDeclaration (index : Index) (item : ObjectItem) (path : String) :
    Option Index :=
  match item.Keys.get? 1, item.Keys.get? 2 with
  | some k1, some k2 =>
    some { index with Resources := index.Resources ++
      [{ Name := getText k2, Typ := getText k1, Location := getPos k2 path
         Documentation := commentGroup item.LeadComment }] }
  | _, _ => none

/-- index.extractDataDeclaration (same shape, into DataResources). -/
def extractDataDeclaration (index : Index) (item : ObjectItem) (path : String) :
    Option Index :=
  match item.Keys.get? 1, item.Keys.get? 2 with
  | some k1, some k2 =>
    some { index with DataResources := index.DataResources ++
      [{ Name := getText k2, Typ := getText k1, Location := getPos k2 path
         Documentation := commentGroup item.LeadComment }] }
  | _, _ => none

/-- index.extractVariableDeclaration. -/
def extractVariableDeclaration (index : Index) (item : ObjectItem) (path : String) :
    Option Index :=
  match item.Keys.get? 1 with
  | some k1 =>
    some { index with Variables := index.Variables ++
      [{ Name := getText k1, Location := getPos k1 path
         Documentation := commentGroup item.LeadComment }] }
  | none => none

/-- index.extractOutputDeclaration. -/
def extractOutputDeclaration (index : Index) (item : ObjectItem) (path : String) :
    Option Index :=
  match item.Keys.get? 1 with
  | some k1 =>
    some { index with Outputs := index.Outputs ++
      [{ Name := getText k1, Location := getPos k1 path
         Documentation := commentGroup item.LeadComment }] }
  | none => none

/-- index.extractModuleDeclaration. -/
def extractModuleDeclaration (index : Index) (item : ObjectItem) (path : String) :
    Option Index :=
  match item.Keys.get? 1 with
  | some k1 =>
    some { index with Modules := index.Modules ++
      [{ Name := getText k1, Location := getPos k1 path
         Documentation := commentGroup item.LeadComment }] }
  | none => none

/-- index.extractProviderDeclaration: failed alias extraction records a
default provider from Keys[0]; a present alias records a typed provider
from Keys[1] (panicking when Keys[1] is out of range). -/
def extractProviderDeclaration (index : Index) (item : ObjectItem) (path : String) :
    Option Index :=
  match extractPropertyValue item "alias" with
  | none =>
    match item.Keys.get? 0 with
    | some k0 =>
      some { index with DefaultProviders := index.DefaultProviders ++
        [{ Name := getText k0, Location := getPos k0 path
           Documentation := commentGroup item.LeadComment }] }
    | none => none
  | some aliasVal =>
    match item.Keys.get? 1 with
    | some k1 =>
      some { index with Providers := index.Providers ++
        [{ Typ := getText k1, Name := aliasVal, Location := getPos k1 path
           Documentation := commentGroup item.LeadComment }] }
    | none => none

/-- One iteration of index.handleObjectList's loop: empty-key items warn
(stderr only) and are skipped, non-identifier first tokens are skipped,
recognized keywords dispatch, anything else is skipped. -/
def handleItem (index : Index) (item : ObjectItem) (path : String) : Option Index :=
  match item.Keys with
  | [] => some index
  | k0 :: _ =>
    if k0.Typ ≠ 4 then some index
    else
      match k0.Text with
      | "variable" => extractVariableDeclaration index item path
      | "resource" => extractResourceDeclaration index item path
      | "data" => extractDataDeclaration index item path
      | "provider" => extractProviderDeclaration index item path
      | "module" => extractModuleDeclaration index item path
      | "output" => extractOutputDeclaration index item path
      | _ => some index

/-- index.handleObjectList over the item list. -/
def handleObjectList (index : Index) (items : List ObjectItem) (path : String) :
    Option Index :=
  match items with
  | [] => some index
  | it :: rest => do
    let idx ← handleItem index it path
    handleObjectList idx rest path

/- The Collect visitor composed with hclast.Walk: the visitor fires on
ObjectList (handleObjectList) and LiteralType (handleLiteral) nodes, then
Walk descends into children (an ObjectType's single child is its
ObjectList; an ObjectItem's children are its keys, inert, and its value). -/
mutual
def collectNode (hp : HilParse) (path : String) (index : Index) :
    HclNode → Option Index
  | .objectList items => do
    let idx ← handleObjectList index items path
    collectItems hp path idx items
  | .objectType items => do
    let idx ← handleObjectList index items path
    collectItems hp path idx items
  | .literalType tok => some (handleLiteral hp index tok path)
  | .listType nodes => collectNodes hp path index nodes
def collectItems (hp : HilParse) (path : String) (index : Index) :
    List ObjectItem → Option Index
  | [] => some index
  | it :: rest => do
    let idx ← collectItem hp path index it
    collectItems hp path idx rest
def collectItem (hp : HilParse) (path : String) (index : Index) :
    ObjectItem → Option Index
  | .mk _ none _ => some index
  | .mk _ (some v) _ => collectNode hp path index v
def collectNodes (hp : HilParse) (path : String) (index : Index) :
    List HclNode → Option Index
  | [] => some index
  | n :: rest => do
    let idx ← collectNode hp path index n
    collectNodes hp path idx rest
end

/-- index.Collect: one full traversal, then optionally retain the raw
tree. -/
def Collect (hp : HilParse) (index : Index) (astFile : HclFile) (path : String)
    (includeRaw : Bool) : Option Index := do
  let idx ← collectNode hp path index astFile.Node
  some (if includeRaw then { idx with RawAst := some astFile } else idx)

/-- index.CollectString: a configuration-parser failure appends one Error
and returns the error without traversing; success delegates to Collect.
The second component is Go's returned `error` value. -/
def CollectString (hcp : HclParse) (hp : HilParse) (index : Index) (contents : String)
    (path : String) (includeRaw : Bool) : Option (Index × Option GoHclErr) :=
  match hcp contents with
  | .error e =>
    some ({ index with Errors := index.Errors ++ [makeError e path] }, some e)
  | .ok astFile => (Collect hp index astFile path includeRaw).map (fun i => (i, none))

/-- A sequence of CollectString calls against one shared Index (the CLI's
main loop): each call contributes its own contents, path and raw flag, and
the loop continues even after a parse error. -/
def collectSeq (hcp : HclParse) (hp : HilParse) (index : Index) :
    List (String × String × Bool) → Option Index
  | [] => some index
  | (c, p, r) :: rest => do
    let pr ← CollectString hcp hp index c p r
    collectSeq hcp hp pr.1 rest

/-- The fold of addReference over a sequence of (reference, position)
occurrences, in processing order. -/
def runRefs (index : Index) (rs : List (String × HclPos)) : Index :=
  rs.foldl (fun i rp => addReference i rp.1 rp.2) index

/-- Spec-level description of how one processed occurrence `r` updates the
stored reference kind for canonical name `n`: every occurrence keyed at
`n` overwrites the kind (`var` canonicalized to `variable`); all other
occurrences leave it unchanged. -/
def refKindStep (n acc r : String) : String :=
  match refParts r with
  | p0 :: p1 :: _ => if p1 == n then (if p0 == "var" then "variable" else p0) else acc
  | _ => acc

/-- Spec-level description of how one processed occurrence `r` updates the
stored attribute path for canonical name `n`: only an occurrence keyed at
`n` that itself carries an attribute path (three or more dotted
components) overwrites it; every other occurrence leaves it unchanged. -/
def refPathStep (n acc r : String) : String :=
  match refParts r with
  | _ :: p1 :: p2 :: _ => if p1 == n then p2 else acc
  | _ => acc

/-- The Error appended by handleLiteral for a failed expression parse. -/
def litError (e : HilErr) (tok : Token) : Error :=
  match e with
  | .parseError m p => { Message := m, Location := toHclPos p }
  | .otherErr m => { Message := m, Location := tok.Pos }

/-- An object item binding property `prop` to a literal value: its first
key's trimmed text equals `prop` and its value is a LiteralType. -/
def bindsLiteralProp (prop : String) (it : ObjectItem) : Prop :=
  (∃ k ks, it.Keys = k :: ks ∧ getText k = prop) ∧ ∃ tok, it.Val = some (.literalType tok)

/-- `b` extends list `a` by a suffix all of whose elements carry file path
`p` (as read by `f`). -/
def ExtBy {α : Type} (f : α → HclPos) (p : String) (a b : List α) : Prop :=
  ∃ t, b = a ++ t ∧ ∀ s ∈ t, (f s).Filename = p

/-- Index `b` extends index `a` on every declaration list and on every
reference location list, and every added location is stamped with file
path `p`.  (Errors and RawAst are unconstrained.) -/
def StampedExtends (p : String) (a b : Index) : Prop :=
  ExtBy (fun s : UntypedSection => s.Location) p a.Variables b.Variables ∧
  ExtBy (fun s : UntypedSection => s.Location) p a.DefaultProviders b.DefaultProviders ∧
  ExtBy (fun s : TypedSection => s.Location) p a.Providers b.Providers ∧
  ExtBy (fun s : TypedSection => s.Location) p a.Resources b.Resources ∧
  ExtBy (fun s : TypedSection => s.Location) p a.DataResources b.DataResources ∧
  ExtBy (fun s : UntypedSection => s.Location) p a.Modules b.Modules ∧
  ExtBy (fun s : UntypedSection => s.Location) p a.Outputs b.Outputs ∧
  ∀ n, ExtBy (fun l : HclPos => l) p
    (lookupRef a.References n).Locations (lookupRef b.References n).Locations

/-- The References-map invariant: every present key maps to a
ReferenceList whose Name is that key and whose location list is
non-empty. -/
def RefInv (idx : Index) : Prop :=
  ∀ k, containsRef idx.References k = true →
    (lookupRef idx.References k).Name = k ∧ (lookupRef idx.References k).Locations ≠ []

/-- An item supplies every key token the classifier's unguarded slice
indexing requires: variable/module/output need a second key,
resource/data a third, and a provider whose alias extraction succeeds a
second.  Items that are skipped (no keys, non-identifier first token,
unrecognized keyword) need nothing. -/
def wfItemKeys (it : ObjectItem) : Bool :=
  match it.Keys with
  | [] => true
  | k0 :: _ =>
    if k0.Typ ≠ 4 then true
    else
      match k0.Text with
      | "variable" => decide (2 ≤ it.Keys.length)
      | "resource" => decide (3 ≤ it.Keys.length)
      | "data" => decide (3 ≤ it.Keys.length)
      | "provider" => (extractPropertyValue it "alias").isNone || decide (2 ≤ it.Keys.length)
      | "module" => decide (2 ≤ it.Keys.length)
      | "output" => decide (2 ≤ it.Keys.length)
      | _ => true

/- Well-formedness of a tree: every item of every object list (at any
depth) satisfies wfItemKeys. -/
mutual
def wfNode : HclNode → Bool
  | .objectList items => wfItems items
  | .objectType items => wfItems items
  | .literalType _ => true
  | .listType nodes => wfNodes nodes
def wfItems : List ObjectItem → Bool
  | [] => true
  | it :: rest => wfItem it && wfItems rest
def wfItem : ObjectItem → Bool
  | .mk ks val lc =>
    wfItemKeys (.mk ks val lc) &&
      (match val with
       | some v => wfNode v
       | none => true)
def wfNodes : List HclNode → Bool
  | [] => true
  | n :: rest => wfNode n && wfNodes rest
end

/- Concrete fixtures: the file `main.tf` containing `x = "${1 +}"`, with
the expression parser rejecting the interpolation at line 1, column 5.
hcl.ParseBytes leaves Filename empty in every token position, so the
literal's position - and hence the hil parse error's position - carries
no file path. -/

def c2hil : HilParse :=
  fun _ _ => .error (.parseError "syntax error" { Column := 5, Line := 1, Filename := "" })

def c2tok : Token :=
  { Typ := 9, Pos := { Filename := "", Offset := 4, Line := 1, Column := 5 }
    Text := "\"${1 +}\"" }

def c2tree : HclFile :=
  { Node := .objectList
      [.mk [{ Typ := 4, Pos := { Filename := "", Offset := 0, Line := 1, Column := 1 }
              Text := "x" }]
        (some (.literalType c2tok)) none] }

/- Concrete fixture: the file `t.tf` containing `resource "aws_instance" {}`
(a resource block with only two key tokens). -/

def c5item : ObjectItem :=
  .mk [{ Typ := 4, Pos := { Filename := "", Offset := 0, Line := 1, Column := 1 }
         Text := "resource" },
       { Typ := 9, Pos := { Filename := "", Offset := 9, Line := 1, Column := 10 }
         Text := "\"aws_instance\"" }]
    (some (.objectType [])) none

def c5tree : HclFile := { Node := .objectList [c5item] }

def c5hil : HilParse := fun _ _ => .ok (.internal [])

/- Concrete fixtures: provider blocks.  `w3aliased` is
`provider "aws" { alias = "east" }`; `w3plain` is `provider "aws" {}`;
`w10nonlit` is `provider "aws" { alias = ["east"] }` (alias bound to a
list, not a literal). -/

def w3k0 : Token :=
  { Typ := 4, Pos := { Filename := "", Offset := 0, Line := 1, Column := 1 }, Text := "provider" }

def w3k1 : Token :=
  { Typ := 9, Pos := { Filename := "", Offset := 9, Line := 1, Column := 10 }, Text := "\"aws\"" }

def w3aliasKey : Token :=
  { Typ := 4, Pos := { Filename := "", Offset := 18, Line := 2, Column := 3 }, Text := "alias" }

def w3aliasVal : Token :=
  { Typ := 9, Pos := { Filename := "", Offset := 26, Line := 2, Column := 11 }, Text := "\"east\"" }

def w3aliased : ObjectItem :=
  .mk [w3k0, w3k1]
    (some (.objectType [.mk [w3aliasKey] (some (.literalType w3aliasVal)) none])) none

def w3plain : ObjectItem :=
  .mk [w3k0, w3k1] (some (.objectType [])) none

def w10nonlit : ObjectItem :=
  .mk [w3k0, w3k1]
    (some (.objectType [.mk [w3aliasKey] (some (.listType [])) none])) none

/- Concrete fixtures for a full end-to-end run: one file `a.tf` whose
parsed tree is `x = "${var.foo}"`, and an expression parser that resolves
that literal to a single access of `var.foo`. -/

def w9lit : Token :=
  { Typ := 9, Pos := { Filename := "", Offset := 4, Line := 1, Column := 5 }
    Text := "\"${var.foo}\"" }

def w9file : HclFile :=
  { Node := .objectList
      [.mk [{ Typ := 4, Pos := { Filename := "", Offset := 0, Line := 1, Column := 1 }
              Text := "x" }]
        (some (.literalType w9lit)) none] }

def w9hcl : HclParse := fun _ => .ok w9file

def w9hil : HilParse :=
  fun s _ =>
    if s == "\"${var.foo}\"" then
      .ok (.internal [.variableAccess "var.foo" { Column := 7, Line := 1, Filename := "" }])
    else .error (.otherErr "unexpected literal")

def c9res : Index :=
  (collectSeq w9hcl w9hil NewIndex [("x = ...", "a.tf", false)]).getD NewIndex

def c2wres : Index :=
  (CollectString w9hcl w9hil NewIndex "x = ..." "a.tf" false).map Prod.fst |>.getD NewIndex

theorem lookupRef_insert_self (m : RefMap) (k : String) (v : ReferenceList) :
    lookupRef (insertRef m k v) k = v := by
  induction m with
  | nil => simp [insertRef, lookupRef]
  | cons p rest ih =>
    obtain ⟨k', v'⟩ := p
    by_cases h : k' = k
    · subst h
      simp [insertRef, lookupRef]
    · simpa [insertRef, lookupRef, h] using ih

theorem lookupRef_insert_ne (m : RefMap) (k n : String) (v : ReferenceList) (h : k ≠ n) :
    lookupRef (insertRef m k v) n = lookupRef m n := by
  induction m with
  | nil => simp [insertRef, lookupRef, h]
  | cons p rest ih =>
    obtain ⟨k', v'⟩ := p
    by_cases h' : k' = k
    · subst h'
      simp [insertRef, lookupRef, h]
    · by_cases h'' : k' = n
      · subst h''
        simp [insertRef, lookupRef, h']
      · simpa [insertRef, lookupRef, h', h''] using ih

theorem containsRef_insert_ne (m : RefMap) (k n : String) (v : ReferenceList) (h : k ≠ n) :
    containsRef (insertRef m k v) n = containsRef m n := by
  induction m with
  | nil => simp [insertRef, containsRef, h]
  | cons p rest ih =>
    obtain ⟨k', v'⟩ := p
    by_cases h' : k' = k
    · subst h'
      simp [insertRef, containsRef, h]
    · by_cases h'' : k' = n
      · subst h''
        simp [insertRef, containsRef, h']
      · simpa [insertRef, containsRef, h', h''] using ih

theorem dropWhile_ne_of_not_mem (sep : Char) (l : List Char) (h : sep ∉ l) :
    List.dropWhile (fun c => decide (c ≠ sep)) l = [] := by
  induction l with
  | nil => rfl
  | cons c t ih =>
    have hc : c ≠ sep := fun e => h (by simp [e])
    rw [List.dropWhile_cons, if_pos (by simpa using hc)]
    exact ih (fun hx => h (List.mem_cons_of_mem _ hx))

theorem dropWhile_ne_append (sep : Char) (k t : List Char) (hk : sep ∉ k) :
    List.dropWhile (fun c => decide (c ≠ sep)) (k ++ sep :: t) = sep :: t := by
  induction k with
  | nil => rw [List.nil_append, List.dropWhile_cons, if_neg (by simp)]
  | cons c k' ih =>
    have hc : c ≠ sep := fun e => hk (by simp [e])
    rw [List.cons_append, List.dropWhile_cons, if_pos (by simpa using hc)]
    exact ih (fun hx => hk (List.mem_cons_of_mem _ hx))

theorem takeWhile_ne_append (sep : Char) (k t : List Char) (hk : sep ∉ k) :
    List.takeWhile (fun c => decide (c ≠ sep)) (k ++ sep :: t) = k := by
  induction k with
  | nil => rw [List.nil_append, List.takeWhile_cons, if_neg (by simp)]
  | cons c k' ih =>
    have hc : c ≠ sep := fun e => hk (by simp [e])
    rw [List.cons_append, List.takeWhile_cons, if_pos (by simpa using hc),
      ih (fun hx => hk (List.mem_cons_of_mem _ hx))]

theorem splitUpto_no_sep (n : Nat) (sep : Char) (l : List Char) (h : sep ∉ l) :
    splitUpto n sep l = [l] := by
  cases n with
  | zero => rfl
  | succ k =>
    unfold splitUpto
    rw [dropWhile_ne_of_not_mem sep l h]

theorem splitUpto_succ_sep (n : Nat) (sep : Char) (k t : List Char) (hk : sep ∉ k) :
    splitUpto (n + 1) sep (k ++ sep :: t) = k :: splitUpto n sep t := by
  conv_lhs => unfold splitUpto
  rw [dropWhile_ne_append sep k t hk, takeWhile_ne_append sep k t hk]

theorem refParts_two (k name : String) (hk : '.' ∉ k.toList) (hn : '.' ∉ name.toList) :
    refParts (k ++ "." ++ name) = [k, name] := by
  unfold refParts
  have h1 : (k ++ "." ++ name).toList = k.toList ++ '.' :: name.toList := by
    simp [String.toList]
  rw [h1, splitUpto_succ_sep 1 '.' _ _ hk, splitUpto_no_sep 1 '.' _ hn]
  rfl

theorem refParts_var (name : String) (hn : '.' ∉ name.toList) :
    refParts ("var." ++ name) = ["var", name] := by
  unfold refParts
  have h1 : ("var." ++ name).toList = 'v' :: 'a' :: 'r' :: '.' :: name.toList := by
    simp [String.toList]
  rw [h1]
  rw [show splitUpto 2 '.' ('v' :: 'a' :: 'r' :: '.' :: name.toList)
      = ['v', 'a', 'r'] :: splitUpto 1 '.' name.toList from rfl]
  rw [splitUpto_no_sep 1 '.' _ hn]
  rfl

theorem addReference_of_short (idx : Index) (r : String) (pos : HclPos)
    (h : (refParts r).length < 2) : addReference idx r pos = idx := by
  rcases hr : refParts r with _ | ⟨p0, _ | ⟨p1, rest⟩⟩
  · unfold addReference; rw [hr]
  · unfold addReference; rw [hr]
  · rw [hr] at h
    simp only [List.length_cons] at h
    omega

theorem addReference_cons (idx : Index) (r : String) (pos : HclPos)
    (p0 p1 : String) (rest : List String) (h : refParts r = p0 :: p1 :: rest) :
    addReference idx r pos =
      { idx with References := (insertRef idx.References p1
          { Name := p1
            Typ := if p0 == "var" then "variable" else p0
            Path := rest.headD (lookupRef idx.References p1).Path
            Locations := (lookupRef idx.References p1).Locations ++ [pos] }) } := by
  unfold addReference
  rw [h]
  cases rest <;> rfl

theorem lookupRef_addReference_self (idx : Index) (r : String) (pos : HclPos)
    (p0 p1 : String) (rest : List String) (h : refParts r = p0 :: p1 :: rest) :
    lookupRef (addReference idx r pos).References p1 =
      { Name := p1
        Typ := if p0 == "var" then "variable" else p0
        Path := rest.headD (lookupRef idx.References p1).Path
        Locations := (lookupRef idx.References p1).Locations ++ [pos] } := by
  rw [addReference_cons idx r pos p0 p1 rest h]
  exact lookupRef_insert_self _ _ _

theorem lookupRef_addReference_ne (idx : Index) (r : String) (pos : HclPos)
    (p0 p1 : String) (rest : List String) (n : String)
    (h : refParts r = p0 :: p1 :: rest) (hne : p1 ≠ n) :
    lookupRef (addReference idx r pos).References n = lookupRef idx.References n := by
  rw [addReference_cons idx r pos p0 p1 rest h]
  exact lookupRef_insert_ne _ _ _ _ hne

theorem lookupRef_addReference_Typ (idx : Index) (r : String) (pos : HclPos) (n : String) :
    (lookupRef (addReference idx r pos).References n).Typ =
      refKindStep n (lookupRef idx.References n).Typ r := by
  rcases hr : refParts r with _ | ⟨p0, _ | ⟨p1, rest⟩⟩
  · rw [addReference_of_short idx r pos (by rw [hr]; simp)]
    unfold refKindStep; rw [hr]
  · rw [addReference_of_short idx r pos (by rw [hr]; simp)]
    unfold refKindStep; rw [hr]
  · by_cases hn : p1 = n
    · subst hn
      rw [lookupRef_addReference_self idx r pos p0 p1 rest hr]
      unfold refKindStep; rw [hr]; simp
    · rw [lookupRef_addReference_ne idx r pos p0 p1 rest n hr hn]
      unfold refKindStep; rw [hr]
      simp [hn]

theorem lookupRef_addReference_Path (idx : Index) (r : String) (pos : HclPos) (n : String) :
    (lookupRef (addReference idx r pos).References n).Path =
      refPathStep n (lookupRef idx.References n).Path r := by
  rcases hr : refParts r with _ | ⟨p0, _ | ⟨p1, rest⟩⟩
  · rw [addReference_of_short idx r pos (by rw [hr]; simp)]
    unfold refPathStep; rw [hr]
  · rw [addReference_of_short idx r pos (by rw [hr]; simp)]
    unfold refPathStep; rw [hr]
  · by_cases hn : p1 = n
    · subst hn
      rw [lookupRef_addReference_self idx r pos p0 p1 rest hr]
      unfold refPathStep; rw [hr]
      cases rest <;> simp
    · rw [lookupRef_addReference_ne idx r pos p0 p1 rest n hr hn]
      unfold refPathStep; rw [hr]
      cases rest <;> simp [hn]

/-- C1 (amended): every processed occurrence of canonical name `n` sets the
stored kind (with `var` canonicalized to `variable`), but only an
occurrence that itself carries an attribute path (three or more dotted
components) sets the stored path; so after processing any occurrence
sequence, References[n].Typ comes from the most recently processed
occurrence of `n` and References[n].Path from the most recently processed
occurrence of `n` that carried a path, occurrences without one leaving the
stored path unchanged. -/
theorem addReference_fold_kind_path (rs : List (String × HclPos)) (idx : Index) (n : String) :
    (lookupRef (runRefs idx rs).References n).Typ =
      rs.foldl (fun acc rp => refKindStep n acc rp.1) (lookupRef idx.References n).Typ ∧
    (lookupRef (runRefs idx rs).References n).Path =
      rs.foldl (fun acc rp => refPathStep n acc rp.1) (lookupRef idx.References n).Path := by
  induction rs generalizing idx with
  | nil => exact ⟨rfl, rfl⟩
  | cons rp rs ih =>
    obtain ⟨r, pos⟩ := rp
    have hrun : runRefs idx ((r, pos) :: rs) = runRefs (addReference idx r pos) rs := rfl
    constructor
    · rw [hrun, (ih (addReference idx r pos)).1, List.foldl_cons,
        lookupRef_addReference_Typ]
    · rw [hrun, (ih (addReference idx r pos)).2, List.foldl_cons,
        lookupRef_addReference_Path]

/-- C1 counterexample: after processing `aws_instance.web.id` and then the
path-less occurrence `var.web`, References["web"].Path is still "id" - a
two-component occurrence does not reset the stored attribute path, contrary
to the claim. -/
theorem addReference_two_component_keeps_path :
    (lookupRef (addReference (addReference NewIndex "aws_instance.web.id"
        { Filename := "a.tf", Offset := 0, Line := 1, Column := 5 }) "var.web"
        { Filename := "a.tf", Offset := 0, Line := 2, Column := 5 }).References "web").Path
      = "id" ∧ "id" ≠ "" := by
  refine ⟨by decide, by decide⟩

/-- C8: translating an expression-parser position into the
configuration-parser coordinate space preserves the line, column and
file-path fields and sets the byte offset to zero. -/
theorem toHclPos_preserves (pos : HilPos) :
    (toHclPos pos).Line = pos.Line ∧ (toHclPos pos).Column = pos.Column ∧
    (toHclPos pos).Filename = pos.Filename ∧ (toHclPos pos).Offset = 0 :=
  ⟨rfl, rfl, rfl, rfl⟩

theorem runRefs_var_grow (name : String) (hn : '.' ∉ name.toList) :
    ∀ (ps : List HclPos) (idx : Index) (acc : List HclPos),
      lookupRef idx.References name =
        { Name := name, Typ := "variable", Path := "", Locations := acc } →
      lookupRef (runRefs idx (ps.map (fun q => ("var." ++ name, q)))).References name
        = { Name := name, Typ := "variable", Path := "", Locations := acc ++ ps } := by
  intro ps
  induction ps with
  | nil =>
    intro idx acc h
    simpa using h
  | cons p ps ih =>
    intro idx acc h
    have hstep := lookupRef_addReference_self idx ("var." ++ name) p "var" name []
      (refParts_var name hn)
    rw [h] at hstep
    have h1 : runRefs idx ((p :: ps).map fun q => ("var." ++ name, q))
        = runRefs (addReference idx ("var." ++ name) p)
            (ps.map fun q => ("var." ++ name, q)) := rfl
    rw [h1, ih (addReference idx ("var." ++ name) p) (acc ++ [p]) (hstep.trans rfl)]
    simp

/-- C4: processing a variable access splits its dotted name on `.` into at
most three parts; with fewer than two parts nothing at all changes (no
References entry, no Error); otherwise the ReferenceList is keyed by the
second component, kind `var` maps to `variable` while other kinds pass
through unchanged, and every syntactic occurrence appends one location
entry without deduplication, so N occurrences of `${var.foo}` starting
from no entry yield References["foo"] with kind `variable` and exactly the
N occurrence locations. -/
theorem addReference_reference_shape :
    (∀ (idx : Index) (r : String) (pos : HclPos),
        (refParts r).length < 2 → addReference idx r pos = idx) ∧
    (∀ (idx : Index) (k name : String) (pos : HclPos),
        '.' ∉ k.toList → '.' ∉ name.toList →
        lookupRef (addReference idx (k ++ "." ++ name) pos).References name =
          { Name := name
            Typ := if k == "var" then "variable" else k
            Path := (lookupRef idx.References name).Path
            Locations := (lookupRef idx.References name).Locations ++ [pos] }) ∧
    (∀ (idx : Index) (name : String) (p : HclPos) (ps : List HclPos),
        '.' ∉ name.toList →
        lookupRef idx.References name = emptyRefList →
        lookupRef (runRefs idx
            ((p :: ps).map (fun q => ("var." ++ name, q)))).References name
          = { Name := name, Typ := "variable", Path := "", Locations := p :: ps }) := by
  refine ⟨fun idx r pos h => addReference_of_short idx r pos h, ?_, ?_⟩
  · intro idx k name pos hk hn
    have h := lookupRef_addReference_self idx (k ++ "." ++ name) pos k name []
      (refParts_two k name hk hn)
    simpa using h
  · intro idx name p ps hn h0
    have hstep := lookupRef_addReference_self idx ("var." ++ name) p "var" name []
      (refParts_var name hn)
    rw [h0] at hstep
    have h1 : runRefs idx ((p :: ps).map fun q => ("var." ++ name, q))
        = runRefs (addReference idx ("var." ++ name) p)
            (ps.map fun q => ("var." ++ name, q)) := rfl
    rw [h1, runRefs_var_grow name hn ps _ [p] (hstep.trans rfl)]
    rfl

/-- C4 witness: the one-component access `count` changes nothing, and two
occurrences of `var.foo` yield References["foo"] with kind `variable` and
exactly the two occurrence locations. -/
theorem addReference_reference_shape_witness :
    addReference NewIndex "count"
        { Filename := "w.tf", Offset := 0, Line := 3, Column := 1 } = NewIndex ∧
    lookupRef (runRefs NewIndex
        [("var." ++ "foo", { Filename := "w.tf", Offset := 0, Line := 1, Column := 2 }),
         ("var." ++ "foo", { Filename := "w.tf", Offset := 9, Line := 2, Column := 2 })]).References "foo"
      = { Name := "foo", Typ := "variable", Path := ""
          Locations := [{ Filename := "w.tf", Offset := 0, Line := 1, Column := 2 },
                        { Filename := "w.tf", Offset := 9, Line := 2, Column := 2 }] } := by
  constructor
  · exact addReference_reference_shape.1 NewIndex "count" _ (by decide)
  · exact addReference_reference_shape.2.2 NewIndex "foo"
      { Filename := "w.tf", Offset := 0, Line := 1, Column := 2 }
      [{ Filename := "w.tf", Offset := 9, Line := 2, Column := 2 }]
      (by decide) rfl

/-- C3: a top-level item whose first key token is the identifier
`provider` is classified by its alias: with a scalar `alias` property in
the block body, exactly one TypedSection is appended to Providers with
name the alias value, type the second key token's trimmed text and
location at the second key token; without one, exactly one UntypedSection
is appended to DefaultProviders with name the first key token's trimmed
text and location at that token, every other Index field being untouched
in both cases. -/
theorem provider_classification (idx : Index) (item : ObjectItem) (path : String)
    (k0 : Token) (ks : List Token)
    (hkeys : item.Keys = k0 :: ks) (htyp : k0.Typ = 4) (htext : k0.Text = "provider") :
    (∀ a k1 ks', extractPropertyValue item "alias" = some a → ks = k1 :: ks' →
        handleItem idx item path = some { idx with Providers := idx.Providers ++
          [{ Typ := getText k1, Name := a, Location := getPos k1 path
             Documentation := commentGroup item.LeadComment }] }) ∧
    (extractPropertyValue item "alias" = none →
        handleItem idx item path = some { idx with DefaultProviders :=
          idx.DefaultProviders ++
          [{ Name := getText k0, Location := getPos k0 path
             Documentation := commentGroup item.LeadComment }] }) := by
  constructor
  · intro a k1 ks' ha hks
    subst hks
    unfold handleItem
    rw [hkeys]
    simp only [htyp, htext, ne_eq, not_true_eq_false, if_false, reduceCtorEq]
    unfold extractProviderDeclaration
    rw [ha, hkeys]
    rfl
  · intro ha
    unfold handleItem
    rw [hkeys]
    simp only [htyp, htext, ne_eq, not_true_eq_false, if_false, reduceCtorEq]
    unfold extractProviderDeclaration
    rw [ha, hkeys]
    rfl

/-- C3 witness: `provider "aws" { alias = "east" }` lands in Providers as
a TypedSection named `east` of type `aws` located at the second key token,
and `provider "aws" {}` lands in DefaultProviders. -/
theorem provider_classification_witness :
    handleItem NewIndex w3aliased "m.tf" =
      some { NewIndex with Providers := [⟨"aws", "east", ⟨"m.tf", 9, 1, 10⟩, []⟩] } ∧
    handleItem NewIndex w3plain "m.tf" =
      some { NewIndex with DefaultProviders := [⟨"provider", ⟨"m.tf", 0, 1, 1⟩, []⟩] } := by
  constructor
  · exact (provider_classification NewIndex w3aliased "m.tf" w3k0 [w3k1]
      rfl rfl rfl).1 "east" w3k1 [] rfl rfl
  · exact (provider_classification NewIndex w3plain "m.tf" w3k0 [w3k1]
      rfl rfl rfl).2 rfl

/-- C6: when a literal's interpolation text fails to parse, processing it
appends exactly one Error and changes nothing else in the Index; for a
structured ParseError the appended Error carries the failure's message and
(translated) position; and traversal of the remaining nodes continues from
that index unaffected. -/
theorem handleLiteral_error_isolated (hp : HilParse) (idx : Index) (tok : Token)
    (path : String) (e : HilErr) (h : hp tok.Text (toHilPos tok.Pos) = .error e) :
    handleLiteral hp idx tok path = { idx with Errors := idx.Errors ++ [litError e tok] } ∧
    (∀ m p, e = .parseError m p →
        litError e tok = { Message := m, Location := toHclPos p }) ∧
    (∀ (idx' : Index) (rest : List HclNode),
        collectNodes hp path idx' (.literalType tok :: rest)
          = collectNodes hp path (handleLiteral hp idx' tok path) rest) := by
  refine ⟨?_, ?_, ?_⟩
  · unfold handleLiteral
    rw [h]
    cases e <;> rfl
  · intro m p he
    subst he
    rfl
  · intro idx' rest
    rfl

/-- C6 witness: the malformed interpolation `${1 +}` appends exactly one
Error carrying the parser's message and position and nothing else. -/
theorem handleLiteral_error_isolated_witness :
    handleLiteral c2hil NewIndex c2tok "main.tf" =
      { NewIndex with Errors := [⟨"syntax error", ⟨"", 0, 1, 5⟩⟩] } := by
  have h := (handleLiteral_error_isolated c2hil NewIndex c2tok "main.tf"
    (.parseError "syntax error" { Column := 5, Line := 1, Filename := "" }) rfl).1
  simpa using h

/-- C7: when the configuration parser rejects the content, CollectString
appends exactly one Error (converted by makeError), returns that error,
and performs no traversal: every declaration list, the reference map and
the retained raw tree are exactly as before the call. -/
theorem collectString_error_early_return (hcp : HclParse) (hp : HilParse) (idx : Index)
    (contents path : String) (includeRaw : Bool) (e : GoHclErr)
    (h : hcp contents = .error e) :
    CollectString hcp hp idx contents path includeRaw =
      some ({ idx with Errors := idx.Errors ++ [makeError e path] }, some e) := by
  unfold CollectString
  rw [h]

/-- C7 witness: a parser failure on `][` appends exactly one Error and
leaves every other field of the fresh index unchanged. -/
theorem collectString_error_early_return_witness :
    CollectString (fun _ => .error (.plain "parse failed"))
        (fun _ _ => .ok (.internal [])) NewIndex "][" "b.tf" true =
      some ({ NewIndex with Errors := [⟨"parse failed", zeroPos⟩] },
        some (.plain "parse failed")) := by
  have h := collectString_error_early_return (fun _ => .error (.plain "parse failed"))
    (fun _ _ => .ok (.internal [])) NewIndex "][" "b.tf" true (.plain "parse failed") rfl
  simpa using h

theorem findProp_isSome_iff (prop : String) :
    ∀ items : List ObjectItem,
      (findProp items prop).isSome ↔ ∃ it ∈ items, bindsLiteralProp prop it := by
  intro items
  induction items with
  | nil => simp [findProp]
  | cons it rest ih =>
    obtain ⟨ks0, v0, lc0⟩ := it
    cases ks0 with
    | nil =>
      simp only [findProp, ObjectItem.Keys, ih]
      simp [bindsLiteralProp, ObjectItem.Keys, ObjectItem.Val]
    | cons k ks =>
      by_cases hp : getText k = prop
      · rcases v0 with _ | n
        · simp only [findProp, ObjectItem.Keys, ObjectItem.Val, hp, ne_eq,
            not_true_eq_false, if_false, ih]
          simp [bindsLiteralProp, ObjectItem.Keys, ObjectItem.Val]
        · cases n with
          | objectList its =>
            simp only [findProp, ObjectItem.Keys, ObjectItem.Val, hp, ne_eq,
              not_true_eq_false, if_false, ih]
            simp [bindsLiteralProp, ObjectItem.Keys, ObjectItem.Val]
          | objectType its =>
            simp only [findProp, ObjectItem.Keys, ObjectItem.Val, hp, ne_eq,
              not_true_eq_false, if_false, ih]
            simp [bindsLiteralProp, ObjectItem.Keys, ObjectItem.Val]
          | literalType tok =>
            simp only [findProp, ObjectItem.Keys, ObjectItem.Val, hp, ne_eq,
              not_true_eq_false, if_false, Option.isSome_some, true_iff]
            exact ⟨_, List.mem_cons_self _ _, ⟨⟨k, ks, rfl, hp⟩, ⟨tok, rfl⟩⟩⟩
          | listType ns =>
            simp only [findProp, ObjectItem.Keys, ObjectItem.Val, hp, ne_eq,
              not_true_eq_false, if_false, ih]
            simp [bindsLiteralProp, ObjectItem.Keys, ObjectItem.Val]
      · simp only [findProp, ObjectItem.Keys, hp, ne_eq, not_false_eq_true, if_true, ih]
        simp [bindsLiteralProp, ObjectItem.Keys, ObjectItem.Val, hp]

theorem findProp_first (prop : String) :
    ∀ (pre : List ObjectItem) (it : ObjectItem) (post : List ObjectItem),
      (∀ it' ∈ pre, ¬ bindsLiteralProp prop it') →
      ∀ (k : Token) (ks : List Token) (tok : Token),
        it.Keys = k :: ks → getText k = prop → it.Val = some (.literalType tok) →
        findProp (pre ++ it :: post) prop = some (getText tok) := by
  intro pre
  induction pre with
  | nil =>
    intro it post _ k ks tok hk hp hv
    obtain ⟨ks0, v0, lc0⟩ := it
    simp only [ObjectItem.Keys] at hk
    simp only [ObjectItem.Val] at hv
    subst hk
    subst hv
    simp [findProp, ObjectItem.Keys, ObjectItem.Val, hp]
  | cons it' pre' ih =>
    intro it post hpre k ks tok hk hp hv
    obtain ⟨ks1, v1, lc1⟩ := it'
    have hnot : ¬ bindsLiteralProp prop (ObjectItem.mk ks1 v1 lc1) :=
      hpre _ (List.mem_cons_self _ _)
    have hrest : ∀ x ∈ pre', ¬ bindsLiteralProp prop x :=
      fun x hx => hpre x (List.mem_cons_of_mem _ hx)
    have htail := ih it post hrest k ks tok hk hp hv
    cases ks1 with
    | nil => simpa [findProp, ObjectItem.Keys] using htail
    | cons k1 ks1' =>
      by_cases hp1 : getText k1 = prop
      · rcases v1 with _ | n
        · simpa [findProp, ObjectItem.Keys, ObjectItem.Val, hp1] using htail
        · cases n with
          | objectList its =>
            simpa [findProp, ObjectItem.Keys, ObjectItem.Val, hp1] using htail
          | objectType its =>
            simpa [findProp, ObjectItem.Keys, ObjectItem.Val, hp1] using htail
          | literalType tok1 =>
            exact absurd ⟨⟨k1, ks1', rfl, hp1⟩, ⟨tok1, rfl⟩⟩ hnot
          | listType ns =>
            simpa [findProp, ObjectItem.Keys, ObjectItem.Val, hp1] using htail
      · simpa [findProp, ObjectItem.Keys, hp1] using htail

/-- C10: property extraction succeeds exactly when the item's block body
is an object containing an item that binds the property's name (trimmed)
to a literal value; on success it returns the first such binding's trimmed
text; and a provider whose alias extraction fails - in particular one
whose `alias` key is bound only to non-literal values - is classified as a
default provider. -/
theorem extractPropertyValue_characterization :
    (∀ (item : ObjectItem) (prop : String),
        (extractPropertyValue item prop).isSome ↔
          ∃ items, item.Val = some (.objectType items) ∧
            ∃ it ∈ items, bindsLiteralProp prop it) ∧
    (∀ (item : ObjectItem) (prop : String) (items pre post : List ObjectItem)
        (it : ObjectItem) (k : Token) (ks : List Token) (tok : Token),
        item.Val = some (.objectType items) → items = pre ++ it :: post →
        (∀ it' ∈ pre, ¬ bindsLiteralProp prop it') →
        it.Keys = k :: ks → getText k = prop → it.Val = some (.literalType tok) →
        extractPropertyValue item prop = some (getText tok)) ∧
    (∀ (idx : Index) (item : ObjectItem) (path : String) (k0 : Token) (ks : List Token),
        item.Keys = k0 :: ks → k0.Typ = 4 → k0.Text = "provider" →
        extractPropertyValue item "alias" = none →
        handleItem idx item path = some { idx with DefaultProviders :=
          idx.DefaultProviders ++
            [⟨getText k0, getPos k0 path, commentGroup item.LeadComment⟩] }) := by
  refine ⟨?_, ?_, ?_⟩
  · intro item prop
    obtain ⟨ks0, v0, lc0⟩ := item
    rcases v0 with _ | n
    · simp [extractPropertyValue, ObjectItem.Val]
    · cases n with
      | objectList its => simp [extractPropertyValue, ObjectItem.Val]
      | objectType its =>
        simp only [extractPropertyValue, ObjectItem.Val, findProp_isSome_iff prop its]
        simp
      | literalType tok => simp [extractPropertyValue, ObjectItem.Val]
      | listType ns => simp [extractPropertyValue, ObjectItem.Val]
  · intro item prop items pre post it k ks tok hval hsplit hpre hk hp hv
    subst hsplit
    obtain ⟨ks0, v0, lc0⟩ := item
    simp only [ObjectItem.Val] at hval
    subst hval
    simpa [extractPropertyValue, ObjectItem.Val]
      using findProp_first prop pre it post hpre k ks tok hk hp hv
  · intro idx item path k0 ks hkeys htyp htext ha
    unfold handleItem
    rw [hkeys]
    simp only [htyp, htext, ne_eq, not_true_eq_false, if_false, reduceCtorEq]
    unfold extractProviderDeclaration
    rw [ha, hkeys]
    rfl

/-- C10 witness: an alias key bound to a list is not extractable and the
provider is classified as a default provider, while an alias bound to the
literal `"east"` extracts as the first matching binding. -/
theorem extractPropertyValue_characterization_witness :
    extractPropertyValue w10nonlit "alias" = none ∧
    extractPropertyValue w3aliased "alias" = some "east" ∧
    handleItem NewIndex w10nonlit "m.tf" =
      some { NewIndex with DefaultProviders := [⟨"provider", ⟨"m.tf", 0, 1, 1⟩, []⟩] } := by
  refine ⟨rfl, ?_, ?_⟩
  · exact extractPropertyValue_characterization.2.1 w3aliased "alias" _ [] []
      (ObjectItem.mk [w3aliasKey] (some (.literalType w3aliasVal)) none)
      w3aliasKey [] w3aliasVal rfl rfl (by simp) rfl rfl rfl
  · exact extractPropertyValue_characterization.2.2 NewIndex w10nonlit "m.tf"
      w3k0 [w3k1] rfl rfl rfl rfl

theorem ExtBy_refl {α : Type} (f : α → HclPos) (p : String) (a : List α) : ExtBy f p a a :=
  ⟨[], by simp, by simp⟩

theorem ExtBy_trans {α : Type} (f : α → HclPos) (p : String) (a b c : List α)
    (h1 : ExtBy f p a b) (h2 : ExtBy f p b c) : ExtBy f p a c := by
  obtain ⟨t1, rfl, ht1⟩ := h1
  obtain ⟨t2, rfl, ht2⟩ := h2
  refine ⟨t1 ++ t2, by simp, ?_⟩
  intro s hs
  rcases List.mem_append.mp hs with h | h
  · exact ht1 s h
  · exact ht2 s h

theorem ExtBy_snoc {α : Type} (f : α → HclPos) (p : String) (a : List α) (x : α)
    (h : (f x).Filename = p) : ExtBy f p a (a ++ [x]) :=
  ⟨[x], rfl, by simpa⟩

theorem StampedExtends_refl (p : String) (a : Index) : StampedExtends p a a :=
  ⟨ExtBy_refl _ _ _, ExtBy_refl _ _ _, ExtBy_refl _ _ _, ExtBy_refl _ _ _,
   ExtBy_refl _ _ _, ExtBy_refl _ _ _, ExtBy_refl _ _ _, fun _ => ExtBy_refl _ _ _⟩

theorem StampedExtends_trans (p : String) (a b c : Index)
    (h1 : StampedExtends p a b) (h2 : StampedExtends p b c) : StampedExtends p a c := by
  obtain ⟨a1, a2, a3, a4, a5, a6, a7, a8⟩ := h1
  obtain ⟨b1, b2, b3, b4, b5, b6, b7, b8⟩ := h2
  exact ⟨ExtBy_trans _ _ _ _ _ a1 b1, ExtBy_trans _ _ _ _ _ a2 b2,
    ExtBy_trans _ _ _ _ _ a3 b3, ExtBy_trans _ _ _ _ _ a4 b4,
    ExtBy_trans _ _ _ _ _ a5 b5, ExtBy_trans _ _ _ _ _ a6 b6,
    ExtBy_trans _ _ _ _ _ a7 b7, fun n => ExtBy_trans _ _ _ _ _ (a8 n) (b8 n)⟩

theorem StampedExtends_errors (p : String) (a : Index) (es : List Error) :
    StampedExtends p a { a with Errors := es } :=
  StampedExtends_refl p a

theorem StampedExtends_raw (p : String) (a : Index) (r : Option HclFile) :
    StampedExtends p a { a with RawAst := r } :=
  StampedExtends_refl p a

theorem extractVariableDeclaration_eq (idx : Index) (item : ObjectItem) (path : String)
    (idx' : Index) (h : extractVariableDeclaration idx item path = some idx') :
    ∃ k1, item.Keys.get? 1 = some k1 ∧
      idx' = { idx with Variables := idx.Variables ++
        [⟨getText k1, getPos k1 path, commentGroup item.LeadComment⟩] } := by
  unfold extractVariableDeclaration at h
  split at h
  · cases h
    exact ⟨_, by assumption, rfl⟩
  · cases h

theorem extractOutputDeclaration_eq (idx : Index) (item : ObjectItem) (path : String)
    (idx' : Index) (h : extractOutputDeclaration idx item path = some idx') :
    ∃ k1, item.Keys.get? 1 = some k1 ∧
      idx' = { idx with Outputs := idx.Outputs ++
        [⟨getText k1, getPos k1 path, commentGroup item.LeadComment⟩] } := by
  unfold extractOutputDeclaration at h
  split at h
  · cases h
    exact ⟨_, by assumption, rfl⟩
  · cases h

theorem extractModuleDeclaration_eq (idx : Index) (item : ObjectItem) (path : String)
    (idx' : Index) (h : extractModuleDeclaration idx item path = some idx') :
    ∃ k1, item.Keys.get? 1 = some k1 ∧
      idx' = { idx with Modules := idx.Modules ++
        [⟨getText k1, getPos k1 path, commentGroup item.LeadComment⟩] } := by
  unfold extractModuleDeclaration at h
  split at h
  · cases h
    exact ⟨_, by assumption, rfl⟩
  · cases h

theorem extractResourceDeclaration_eq (idx : Index) (item : ObjectItem) (path : String)
    (idx' : Index) (h : extractResourceDeclaration idx item path = some idx') :
    ∃ k1 k2, item.Keys.get? 1 = some k1 ∧ item.Keys.get? 2 = some k2 ∧
      idx' = { idx with Resources := idx.Resources ++
        [⟨getText k1, getText k2, getPos k2 path, commentGroup item.LeadComment⟩] } := by
  unfold extractResourceDeclaration at h
  split at h
  · cases h
    exact ⟨_, _, by assumption, by assumption, rfl⟩
  · cases h

theorem extractDataDeclaration_eq (idx : Index) (item : ObjectItem) (path : String)
    (idx' : Index) (h : extractDataDeclaration idx item path = some idx') :
    ∃ k1 k2, item.Keys.get? 1 = some k1 ∧ item.Keys.get? 2 = some k2 ∧
      idx' = { idx with DataResources := idx.DataResources ++
        [⟨getText k1, getText k2, getPos k2 path, commentGroup item.LeadComment⟩] } := by
  unfold extractDataDeclaration at h
  split at h
  · cases h
    exact ⟨_, _, by assumption, by assumption, rfl⟩
  · cases h

theorem extractProviderDeclaration_eq (idx : Index) (item : ObjectItem) (path : String)
    (idx' : Index) (h : extractProviderDeclaration idx item path = some idx') :
    (∃ k0, item.Keys.get? 0 = some k0 ∧
      idx' = { idx with DefaultProviders := idx.DefaultProviders ++
        [⟨getText k0, getPos k0 path, commentGroup item.LeadComment⟩] }) ∨
    (∃ a k1, extractPropertyValue item "alias" = some a ∧ item.Keys.get? 1 = some k1 ∧
      idx' = { idx with Providers := idx.Providers ++
        [⟨getText k1, a, getPos k1 path, commentGroup item.LeadComment⟩] }) := by
  unfold extractProviderDeclaration at h
  split at h
  · split at h
    · cases h
      exact Or.inl ⟨_, by assumption, rfl⟩
    · cases h
  · split at h
    · cases h
      refine Or.inr ⟨_, _, by assumption, by assumption, rfl⟩
    · cases h

theorem handleItem_RefErr (idx : Index) (item : ObjectItem) (path : String) (idx' : Index)
    (h : handleItem idx item path = some idx') :
    idx'.References = idx.References ∧ idx'.Errors = idx.Errors := by
  unfold handleItem at h
  split at h
  · cases h
    exact ⟨rfl, rfl⟩
  · split at h
    · cases h
      exact ⟨rfl, rfl⟩
    · split at h
      · obtain ⟨k1, _, rfl⟩ := extractVariableDeclaration_eq idx item path idx' h
        exact ⟨rfl, rfl⟩
      · obtain ⟨k1, k2, _, _, rfl⟩ := extractResourceDeclaration_eq idx item path idx' h
        exact ⟨rfl, rfl⟩
      · obtain ⟨k1, k2, _, _, rfl⟩ := extractDataDeclaration_eq idx item path idx' h
        exact ⟨rfl, rfl⟩
      · rcases extractProviderDeclaration_eq idx item path idx' h with
          ⟨k0, _, rfl⟩ | ⟨a, k1, _, _, rfl⟩
        · exact ⟨rfl, rfl⟩
        · exact ⟨rfl, rfl⟩
      · obtain ⟨k1, _, rfl⟩ := extractModuleDeclaration_eq idx item path idx' h
        exact ⟨rfl, rfl⟩
      · obtain ⟨k1, _, rfl⟩ := extractOutputDeclaration_eq idx item path idx' h
        exact ⟨rfl, rfl⟩
      · cases h
        exact ⟨rfl, rfl⟩

theorem handleItem_stamped (idx : Index) (item : ObjectItem) (path : String) (idx' : Index)
    (h : handleItem idx item path = some idx') : StampedExtends path idx idx' := by
  unfold handleItem at h
  split at h
  · cases h
    exact StampedExtends_refl _ _
  · split at h
    · cases h
      exact StampedExtends_refl _ _
    · split at h
      · obtain ⟨k1, _, rfl⟩ := extractVariableDeclaration_eq idx item path idx' h
        exact ⟨ExtBy_snoc _ _ _ _ rfl, ExtBy_refl _ _ _, ExtBy_refl _ _ _, ExtBy_refl _ _ _,
          ExtBy_refl _ _ _, ExtBy_refl _ _ _, ExtBy_refl _ _ _, fun _ => ExtBy_refl _ _ _⟩
      · obtain ⟨k1, k2, _, _, rfl⟩ := extractResourceDeclaration_eq idx item path idx' h
        exact ⟨ExtBy_refl _ _ _, ExtBy_refl _ _ _, ExtBy_refl _ _ _, ExtBy_snoc _ _ _ _ rfl,
          ExtBy_refl _ _ _, ExtBy_refl _ _ _, ExtBy_refl _ _ _, fun _ => ExtBy_refl _ _ _⟩
      · obtain ⟨k1, k2, _, _, rfl⟩ := extractDataDeclaration_eq idx item path idx' h
        exact ⟨ExtBy_refl _ _ _, ExtBy_refl _ _ _, ExtBy_refl _ _ _, ExtBy_refl _ _ _,
          ExtBy_snoc _ _ _ _ rfl, ExtBy_refl _ _ _, ExtBy_refl _ _ _, fun _ => ExtBy_refl _ _ _⟩
      · rcases extractProviderDeclaration_eq idx item path idx' h with
          ⟨k0, _, rfl⟩ | ⟨a, k1, _, _, rfl⟩
        · exact ⟨ExtBy_refl _ _ _, ExtBy_snoc _ _ _ _ rfl, ExtBy_refl _ _ _, ExtBy_refl _ _ _,
            ExtBy_refl _ _ _, ExtBy_refl _ _ _, ExtBy_refl _ _ _, fun _ => ExtBy_refl _ _ _⟩
        · exact ⟨ExtBy_refl _ _ _, ExtBy_refl _ _ _, ExtBy_snoc _ _ _ _ rfl, ExtBy_refl _ _ _,
            ExtBy_refl _ _ _, ExtBy_refl _ _ _, ExtBy_refl _ _ _, fun _ => ExtBy_refl _ _ _⟩
      · obtain ⟨k1, _, rfl⟩ := extractModuleDeclaration_eq idx item path idx' h
        exact ⟨ExtBy_refl _ _ _, ExtBy_refl _ _ _, ExtBy_refl _ _ _, ExtBy_refl _ _ _,
          ExtBy_refl _ _ _, ExtBy_snoc _ _ _ _ rfl, ExtBy_refl _ _ _, fun _ => ExtBy_refl _ _ _⟩
      · obtain ⟨k1, _, rfl⟩ := extractOutputDeclaration_eq idx item path idx' h
        exact ⟨ExtBy_refl _ _ _, ExtBy_refl _ _ _, ExtBy_refl _ _ _, ExtBy_refl _ _ _,
          ExtBy_refl _ _ _, ExtBy_refl _ _ _, ExtBy_snoc _ _ _ _ rfl, fun _ => ExtBy_refl _ _ _⟩
      · cases h
        exact StampedExtends_refl _ _

theorem handleObjectList_preserve (path : String) (P : Index → Index → Prop)
    (Prefl : ∀ a, P a a) (Ptrans : ∀ a b c, P a b → P b c → P a c)
    (Pstep : ∀ idx item idx', handleItem idx item path = some idx' → P idx idx') :
    ∀ (items : List ObjectItem) (idx idx' : Index),
      handleObjectList idx items path = some idx' → P idx idx' := by
  intro items
  induction items with
  | nil =>
    intro idx idx' h
    cases h
    exact Prefl _
  | cons it rest ih =>
    intro idx idx' h
    unfold handleObjectList at h
    rcases Option.bind_eq_some.mp h with ⟨mid, h1, h2⟩
    exact Ptrans _ _ _ (Pstep idx it mid h1) (ih mid idx' h2)

theorem RefMap_insert_inv (m : RefMap) (k : String) (v : ReferenceList)
    (hName : v.Name = k) (hLoc : v.Locations ≠ [])
    (h : ∀ q, containsRef m q = true →
      (lookupRef m q).Name = q ∧ (lookupRef m q).Locations ≠ []) :
    ∀ q, containsRef (insertRef m k v) q = true →
      (lookupRef (insertRef m k v) q).Name = q ∧
      (lookupRef (insertRef m k v) q).Locations ≠ [] := by
  intro q hq
  by_cases hkq : k = q
  · subst hkq
    rw [lookupRef_insert_self]
    exact ⟨hName, hLoc⟩
  · rw [lookupRef_insert_ne m k q v hkq]
    rw [containsRef_insert_ne m k q v hkq] at hq
    exact h q hq

theorem ExtBy_insert_locations (p : String) (m : RefMap) (k : String) (v : ReferenceList)
    (t : List HclPos) (hv : v.Locations = (lookupRef m k).Locations ++ t)
    (ht : ∀ l ∈ t, l.Filename = p) :
    ∀ n, ExtBy (fun l : HclPos => l) p
      (lookupRef m n).Locations (lookupRef (insertRef m k v) n).Locations := by
  intro n
  by_cases hkn : k = n
  · subst hkn
    rw [lookupRef_insert_self]
    exact ⟨t, hv, ht⟩
  · rw [lookupRef_insert_ne m k n v hkn]
    exact ExtBy_refl _ _ _

theorem RefInv_addReference (idx : Index) (r : String) (pos : HclPos) (h : RefInv idx) :
    RefInv (addReference idx r pos) := by
  rcases hr : refParts r with _ | ⟨p0, _ | ⟨p1, rest⟩⟩
  · rwa [addReference_of_short idx r pos (by rw [hr]; simp)]
  · rwa [addReference_of_short idx r pos (by rw [hr]; simp)]
  · rw [addReference_cons idx r pos p0 p1 rest hr]
    exact fun k hk => RefMap_insert_inv idx.References p1 _ rfl (by simp) h k hk

theorem RefInv_handleLiteral (hp : HilParse) (idx : Index) (tok : Token) (path : String)
    (h : RefInv idx) : RefInv (handleLiteral hp idx tok path) := by
  have hfold : ∀ (l : List (String × HilPos)) (idx : Index), RefInv idx →
      RefInv (l.foldl (fun i np => addReference i np.1 (toHclPosWithPath np.2 path)) idx) := by
    intro l
    induction l with
    | nil => exact fun idx h => h
    | cons a l ih => exact fun idx h => ih _ (RefInv_addReference _ _ _ h)
  unfold handleLiteral
  split
  · exact h
  · exact h
  · exact hfold _ idx h

theorem addReference_stamped (p : String) (idx : Index) (r : String) (pos : HclPos)
    (hpos : pos.Filename = p) : StampedExtends p idx (addReference idx r pos) := by
  rcases hr : refParts r with _ | ⟨p0, _ | ⟨p1, rest⟩⟩
  · rw [addReference_of_short idx r pos (by rw [hr]; simp)]
    exact StampedExtends_refl _ _
  · rw [addReference_of_short idx r pos (by rw [hr]; simp)]
    exact StampedExtends_refl _ _
  · rw [addReference_cons idx r pos p0 p1 rest hr]
    refine ⟨ExtBy_refl _ _ _, ExtBy_refl _ _ _, ExtBy_refl _ _ _, ExtBy_refl _ _ _,
      ExtBy_refl _ _ _, ExtBy_refl _ _ _, ExtBy_refl _ _ _, ?_⟩
    exact ExtBy_insert_locations p idx.References p1 _ [pos] rfl
      (by intro l hl; simp at hl; simpa [hl] using hpos)

theorem handleLiteral_stamped (hp : HilParse) (p : String) (idx : Index) (tok : Token) :
    StampedExtends p idx (handleLiteral hp idx tok p) := by
  have hfold : ∀ (l : List (String × HilPos)) (idx : Index),
      StampedExtends p idx
        (l.foldl (fun i np => addReference i np.1 (toHclPosWithPath np.2 p)) idx) := by
    intro l
    induction l with
    | nil => exact fun idx => StampedExtends_refl _ _
    | cons a l ih =>
      intro idx
      exact StampedExtends_trans _ _ _ _ (addReference_stamped p idx a.1 _ rfl) (ih _)
  unfold handleLiteral
  split
  · exact StampedExtends_errors _ _ _
  · exact StampedExtends_errors _ _ _
  · exact hfold _ idx

mutual
theorem collectNode_preserve (hp : HilParse) (path : String) (P : Index → Index → Prop)
    (Prefl : ∀ a, P a a) (Ptrans : ∀ a b c, P a b → P b c → P a c)
    (Pobj : ∀ idx items idx', handleObjectList idx items path = some idx' → P idx idx')
    (Plit : ∀ idx tok, P idx (handleLiteral hp idx tok path)) :
    ∀ (n : HclNode) (idx idx' : Index),
      collectNode hp path idx n = some idx' → P idx idx'
  | .objectList items, idx, idx', h => by
    unfold collectNode at h
    rcases Option.bind_eq_some.mp h with ⟨mid, h1, h2⟩
    exact Ptrans _ _ _ (Pobj idx items mid h1)
      (collectItems_preserve hp path P Prefl Ptrans Pobj Plit items mid idx' h2)
  | .objectType items, idx, idx', h => by
    unfold collectNode at h
    rcases Option.bind_eq_some.mp h with ⟨mid, h1, h2⟩
    exact Ptrans _ _ _ (Pobj idx items mid h1)
      (collectItems_preserve hp path P Prefl Ptrans Pobj Plit items mid idx' h2)
  | .literalType tok, idx, idx', h => by
    unfold collectNode at h
    cases h
    exact Plit idx tok
  | .listType nodes, idx, idx', h => by
    unfold collectNode at h
    exact collectNodes_preserve hp path P Prefl Ptrans Pobj Plit nodes idx idx' h
theorem collectItems_preserve (hp : HilParse) (path : String) (P : Index → Index → Prop)
    (Prefl : ∀ a, P a a) (Ptrans : ∀ a b c, P a b → P b c → P a c)
    (Pobj : ∀ idx items idx', handleObjectList idx items path = some idx' → P idx idx')
    (Plit : ∀ idx tok, P idx (handleLiteral hp idx tok path)) :
    ∀ (items : List ObjectItem) (idx idx' : Index),
      collectItems hp path idx items = some idx' → P idx idx'
  | [], idx, idx', h => by
    unfold collectItems at h
    cases h
    exact Prefl _
  | it :: rest, idx, idx', h => by
    unfold collectItems at h
    rcases Option.bind_eq_some.mp h with ⟨mid, h1, h2⟩
    exact Ptrans _ _ _
      (collectItem_preserve hp path P Prefl Ptrans Pobj Plit it idx mid h1)
      (collectItems_preserve hp path P Prefl Ptrans Pobj Plit rest mid idx' h2)
theorem collectItem_preserve (hp : HilParse) (path : String) (P : Index → Index → Prop)
    (Prefl : ∀ a, P a a) (Ptrans : ∀ a b c, P a b → P b c → P a c)
    (Pobj : ∀ idx items idx', handleObjectList idx items path = some idx' → P idx idx')
    (Plit : ∀ idx tok, P idx (handleLiteral hp idx tok path)) :
    ∀ (it : ObjectItem) (idx idx' : Index),
      collectItem hp path idx it = some idx' → P idx idx'
  | .mk ks none lc, idx, idx', h => by
    unfold collectItem at h
    cases h
    exact Prefl _
  | .mk ks (some v) lc, idx, idx', h => by
    unfold collectItem at h
    exact collectNode_preserve hp path P Prefl Ptrans Pobj Plit v idx idx' h
theorem collectNodes_preserve (hp : HilParse) (path : String) (P : Index → Index → Prop)
    (Prefl : ∀ a, P a a) (Ptrans : ∀ a b c, P a b → P b c → P a c)
    (Pobj : ∀ idx items idx', handleObjectList idx items path = some idx' → P idx idx')
    (Plit : ∀ idx tok, P idx (handleLiteral hp idx tok path)) :
    ∀ (nodes : List HclNode) (idx idx' : Index),
      collectNodes hp path idx nodes = some idx' → P idx idx'
  | [], idx, idx', h => by
    unfold collectNodes at h
    cases h
    exact Prefl _
  | n :: rest, idx, idx', h => by
    unfold collectNodes at h
    rcases Option.bind_eq_some.mp h with ⟨mid, h1, h2⟩
    exact Ptrans _ _ _
      (collectNode_preserve hp path P Prefl Ptrans Pobj Plit n idx mid h1)
      (collectNodes_preserve hp path P Prefl Ptrans Pobj Plit rest mid idx' h2)
end

theorem Collect_preserve (hp : HilParse) (path : String) (P : Index → Index → Prop)
    (Prefl : ∀ a, P a a) (Ptrans : ∀ a b c, P a b → P b c → P a c)
    (Pobj : ∀ idx items idx', handleObjectList idx items path = some idx' → P idx idx')
    (Plit : ∀ idx tok, P idx (handleLiteral hp idx tok path))
    (Praw : ∀ a r, P a { a with RawAst := r }) :
    ∀ (idx : Index) (f : HclFile) (raw : Bool) (idx' : Index),
      Collect hp idx f path raw = some idx' → P idx idx' := by
  intro idx f raw idx' h
  unfold Collect at h
  rcases Option.bind_eq_some.mp h with ⟨mid, h1, h2⟩
  cases h2
  have hmid := collectNode_preserve hp path P Prefl Ptrans Pobj Plit f.Node idx mid h1
  cases raw with
  | true => exact Ptrans _ _ _ hmid (Praw mid _)
  | false => exact Ptrans _ _ _ hmid (Prefl mid)

theorem handleItem_RefInv (idx : Index) (item : ObjectItem) (path : String) (idx' : Index)
    (h : handleItem idx item path = some idx') (hi : RefInv idx) : RefInv idx' := by
  obtain ⟨hrefs, _⟩ := handleItem_RefErr idx item path idx' h
  intro k hk
  rw [hrefs] at hk ⊢
  exact hi k hk

theorem handleObjectList_RefInv (path : String) (items : List ObjectItem)
    (idx idx' : Index) (h : handleObjectList idx items path = some idx')
    (hi : RefInv idx) : RefInv idx' :=
  handleObjectList_preserve path (fun a b => RefInv a → RefInv b)
    (fun _ q => q) (fun _ _ _ f g q => g (f q))
    (fun idx item idx' h => handleItem_RefInv idx item path idx' h)
    items idx idx' h hi

theorem CollectString_RefInv (hcp : HclParse) (hp : HilParse) (idx : Index)
    (contents path : String) (raw : Bool) (idx' : Index) (eo : Option GoHclErr)
    (h : CollectString hcp hp idx contents path raw = some (idx', eo))
    (hi : RefInv idx) : RefInv idx' := by
  unfold CollectString at h
  split at h
  · cases h
    exact fun k hk => hi k hk
  · rcases Option.map_eq_some'.mp h with ⟨i, hi2, heq⟩
    injection heq with h1 h2
    subst h1
    exact Collect_preserve hp path (fun a b => RefInv a → RefInv b)
      (fun _ q => q) (fun _ _ _ f g q => g (f q))
      (fun idx items idx' h => handleObjectList_RefInv path items idx idx' h)
      (fun idx tok q => RefInv_handleLiteral hp idx tok path q)
      (fun a r q => q)
      idx _ raw i hi2 hi

theorem collectSeq_RefInv (hcp : HclParse) (hp : HilParse) :
    ∀ (ops : List (String × String × Bool)) (idx idx' : Index),
      collectSeq hcp hp idx ops = some idx' → RefInv idx → RefInv idx' := by
  intro ops
  induction ops with
  | nil =>
    intro idx idx' h hi
    cases h
    exact hi
  | cons op rest ih =>
    obtain ⟨c, p, r⟩ := op
    intro idx idx' h hi
    unfold collectSeq at h
    rcases Option.bind_eq_some.mp h with ⟨pr, h1, h2⟩
    obtain ⟨mid, eo⟩ := pr
    exact ih mid idx' h2 (CollectString_RefInv hcp hp idx c p r mid eo h1 hi)

/-- C9: in every Index reachable from a fresh Index by any sequence of
collect operations, every key present in the References map stores a
ReferenceList whose Name equals that key and whose location list is
non-empty. -/
theorem references_key_invariant (hcp : HclParse) (hp : HilParse)
    (ops : List (String × String × Bool)) (idx' : Index)
    (h : collectSeq hcp hp NewIndex ops = some idx') :
    ∀ k, containsRef idx'.References k = true →
      (lookupRef idx'.References k).Name = k ∧
      (lookupRef idx'.References k).Locations ≠ [] :=
  collectSeq_RefInv hcp hp ops NewIndex idx' h
    (fun k hk => by simp [NewIndex, containsRef] at hk)

/-- C9 witness: after collecting the file `a.tf` whose literal resolves to
one access of `var.foo`, the key `foo` is present and its ReferenceList
has Name `foo` and a non-empty location list. -/
theorem references_key_invariant_witness :
    (lookupRef c9res.References "foo").Name = "foo" ∧
    (lookupRef c9res.References "foo").Locations ≠ [] :=
  references_key_invariant w9hcl w9hil [("x = ...", "a.tf", false)] c9res rfl
    "foo" (by rfl)

/-- C2 (amended): every Location a collect call adds to a declaration list
or to a reference location list is stamped with that call's path argument
(each declaration list and each per-name location list is extended by a
suffix of locations whose Filename is the path); Error locations, by
contrast, are not stamped - they keep the parser-reported position, whose
file path may be empty. -/
theorem collect_new_locations_stamped (hcp : HclParse) (hp : HilParse) (idx : Index)
    (contents path : String) (raw : Bool) (idx' : Index) (eo : Option GoHclErr)
    (h : CollectString hcp hp idx contents path raw = some (idx', eo)) :
    StampedExtends path idx idx' := by
  unfold CollectString at h
  split at h
  · cases h
    exact StampedExtends_errors _ _ _
  · rcases Option.map_eq_some'.mp h with ⟨i, hi2, heq⟩
    injection heq with h1 h2
    subst h1
    exact Collect_preserve hp path (StampedExtends path)
      (StampedExtends_refl path) (StampedExtends_trans path)
      (fun idx items idx' h => handleObjectList_preserve path (StampedExtends path)
        (StampedExtends_refl path) (StampedExtends_trans path)
        (fun idx item idx' h => handleItem_stamped idx item path idx' h) items idx idx' h)
      (fun idx tok => handleLiteral_stamped hp path idx tok)
      (fun a r => StampedExtends_raw path a r)
      idx _ raw i hi2

/-- C2 counterexample: collecting `main.tf` whose literal `"${1 +}"` fails
expression parsing stores an Error whose Location has an empty file path,
not `main.tf` - so not every Location in the Index carries the collect
call's path. -/
theorem collect_error_location_unstamped :
    (Collect c2hil NewIndex c2tree "main.tf" false).map
        (fun i => i.Errors.map (fun e => e.Location.Filename)) = some [""] ∧
    ("" : String) ≠ "main.tf" :=
  ⟨rfl, by decide⟩

/-- C2 witness: collecting `a.tf` from a fresh index extends its
declaration and reference location lists only by locations stamped
`a.tf`. -/
theorem collect_new_locations_stamped_witness :
    StampedExtends "a.tf" NewIndex c2wres :=
  collect_new_locations_stamped w9hcl w9hil NewIndex "x = ..." "a.tf" false c2wres none rfl

theorem extractVariableDeclaration_isSome (idx : Index) (item : ObjectItem) (path : String)
    (h : 2 ≤ item.Keys.length) : (extractVariableDeclaration idx item path).isSome := by
  obtain ⟨k1, hk1⟩ : ∃ k1, item.Keys.get? 1 = some k1 := ⟨_, List.get?_eq_get (by omega)⟩
  unfold extractVariableDeclaration
  rw [hk1]
  rfl

theorem extractOutputDeclaration_isSome (idx : Index) (item : ObjectItem) (path : String)
    (h : 2 ≤ item.Keys.length) : (extractOutputDeclaration idx item path).isSome := by
  obtain ⟨k1, hk1⟩ : ∃ k1, item.Keys.get? 1 = some k1 := ⟨_, List.get?_eq_get (by omega)⟩
  unfold extractOutputDeclaration
  rw [hk1]
  rfl

theorem extractModuleDeclaration_isSome (idx : Index) (item : ObjectItem) (path : String)
    (h : 2 ≤ item.Keys.length) : (extractModuleDeclaration idx item path).isSome := by
  obtain ⟨k1, hk1⟩ : ∃ k1, item.Keys.get? 1 = some k1 := ⟨_, List.get?_eq_get (by omega)⟩
  unfold extractModuleDeclaration
  rw [hk1]
  rfl

theorem extractResourceDeclaration_isSome (idx : Index) (item : ObjectItem) (path : String)
    (h : 3 ≤ item.Keys.length) : (extractResourceDeclaration idx item path).isSome := by
  obtain ⟨k1, hk1⟩ : ∃ k1, item.Keys.get? 1 = some k1 := ⟨_, List.get?_eq_get (by omega)⟩
  obtain ⟨k2, hk2⟩ : ∃ k2, item.Keys.get? 2 = some k2 := ⟨_, List.get?_eq_get (by omega)⟩
  unfold extractResourceDeclaration
  rw [hk1, hk2]
  rfl

theorem extractDataDeclaration_isSome (idx : Index) (item : ObjectItem) (path : String)
    (h : 3 ≤ item.Keys.length) : (extractDataDeclaration idx item path).isSome := by
  obtain ⟨k1, hk1⟩ : ∃ k1, item.Keys.get? 1 = some k1 := ⟨_, List.get?_eq_get (by omega)⟩
  obtain ⟨k2, hk2⟩ : ∃ k2, item.Keys.get? 2 = some k2 := ⟨_, List.get?_eq_get (by omega)⟩
  unfold extractDataDeclaration
  rw [hk1, hk2]
  rfl

theorem extractProviderDeclaration_isSome (idx : Index) (item : ObjectItem) (path : String)
    (h0 : 1 ≤ item.Keys.length)
    (h2 : (extractPropertyValue item "alias").isSome → 2 ≤ item.Keys.length) :
    (extractProviderDeclaration idx item path).isSome := by
  unfold extractProviderDeclaration
  rcases ha : extractPropertyValue item "alias" with _ | a
  · obtain ⟨k0, hk0⟩ : ∃ k0, item.Keys.get? 0 = some k0 := ⟨_, List.get?_eq_get (by omega)⟩
    rw [hk0]
    rfl
  · have hlen := h2 (by rw [ha]; rfl)
    obtain ⟨k1, hk1⟩ : ∃ k1, item.Keys.get? 1 = some k1 :=
      ⟨_, List.get?_eq_get (by omega)⟩
    rw [hk1]
    rfl

theorem handleItem_isSome (idx : Index) (item : ObjectItem) (path : String)
    (h : wfItemKeys item = true) : (handleItem idx item path).isSome := by
  unfold wfItemKeys at h
  split at h
  · rename_i heq
    unfold handleItem
    rw [heq]
    rfl
  · rename_i k0 tail heq
    unfold handleItem
    rw [heq]
    dsimp only
    by_cases ht : k0.Typ = 4
    · rw [if_neg (by simp [ht])] at h
      rw [if_neg (by simp [ht])]
      split
      · rename_i htext
        rw [htext] at h
        simp only [decide_eq_true_eq] at h
        exact extractVariableDeclaration_isSome idx item path h
      · rename_i htext
        rw [htext] at h
        simp only [decide_eq_true_eq] at h
        exact extractResourceDeclaration_isSome idx item path h
      · rename_i htext
        rw [htext] at h
        simp only [decide_eq_true_eq] at h
        exact extractDataDeclaration_isSome idx item path h
      · rename_i htext
        rw [htext] at h
        simp only [Bool.or_eq_true, Option.isNone_iff_eq_none, decide_eq_true_eq] at h
        refine extractProviderDeclaration_isSome idx item path (by rw [heq]; simp) ?_
        intro hs
        rcases h with h | h
        · rw [h] at hs
          cases hs
        · exact h
      · rename_i htext
        rw [htext] at h
        simp only [decide_eq_true_eq] at h
        exact extractModuleDeclaration_isSome idx item path h
      · rename_i htext
        rw [htext] at h
        simp only [decide_eq_true_eq] at h
        exact extractOutputDeclaration_isSome idx item path h
      · rfl
    · rw [if_pos (by simp [ht])]
      rfl

theorem handleObjectList_isSome (path : String) :
    ∀ (items : List ObjectItem) (idx : Index), wfItems items = true →
      ∃ idx', handleObjectList idx items path = some idx' := by
  intro items
  induction items with
  | nil => exact fun idx _ => ⟨idx, rfl⟩
  | cons it rest ih =>
    intro idx h
    unfold wfItems at h
    rw [Bool.and_eq_true] at h
    obtain ⟨ks, v, lc⟩ := it
    have h1 := h.1
    unfold wfItem at h1
    rw [Bool.and_eq_true] at h1
    obtain ⟨mid, hmid⟩ := Option.isSome_iff_exists.mp
      (handleItem_isSome idx (.mk ks v lc) path h1.1)
    obtain ⟨fin, hfin⟩ := ih mid h.2
    refine ⟨fin, ?_⟩
    unfold handleObjectList
    rw [hmid]
    exact hfin

mutual
theorem collectNode_isSome (hp : HilParse) (path : String) :
    ∀ (n : HclNode) (idx : Index), wfNode n = true →
      ∃ idx', collectNode hp path idx n = some idx'
  | .objectList items, idx, h => by
    unfold wfNode at h
    obtain ⟨mid, hmid⟩ := handleObjectList_isSome path items idx h
    obtain ⟨fin, hfin⟩ := collectItems_isSome hp path items mid h
    refine ⟨fin, ?_⟩
    unfold collectNode
    rw [hmid]
    exact hfin
  | .objectType items, idx, h => by
    unfold wfNode at h
    obtain ⟨mid, hmid⟩ := handleObjectList_isSome path items idx h
    obtain ⟨fin, hfin⟩ := collectItems_isSome hp path items mid h
    refine ⟨fin, ?_⟩
    unfold collectNode
    rw [hmid]
    exact hfin
  | .literalType tok, idx, h => ⟨handleLiteral hp idx tok path, rfl⟩
  | .listType nodes, idx, h => by
    unfold wfNode at h
    obtain ⟨fin, hfin⟩ := collectNodes_isSome hp path nodes idx h
    exact ⟨fin, hfin⟩
theorem collectItems_isSome (hp : HilParse) (path : String) :
    ∀ (items : List ObjectItem) (idx : Index), wfItems items = true →
      ∃ idx', collectItems hp path idx items = some idx'
  | [], idx, _ => ⟨idx, rfl⟩
  | it :: rest, idx, h => by
    unfold wfItems at h
    rw [Bool.and_eq_true] at h
    obtain ⟨mid, hmid⟩ := collectItem_isSome hp path it idx h.1
    obtain ⟨fin, hfin⟩ := collectItems_isSome hp path rest mid h.2
    refine ⟨fin, ?_⟩
    unfold collectItems
    rw [hmid]
    exact hfin
theorem collectItem_isSome (hp : HilParse) (path : String) :
    ∀ (it : ObjectItem) (idx : Index), wfItem it = true →
      ∃ idx', collectItem hp path idx it = some idx'
  | .mk ks none lc, idx, _ => ⟨idx, rfl⟩
  | .mk ks (some v) lc, idx, h => by
    have hv : wfNode v = true := by
      unfold wfItem at h
      rw [Bool.and_eq_true] at h
      exact h.2
    obtain ⟨fin, hfin⟩ := collectNode_isSome hp path v idx hv
    exact ⟨fin, hfin⟩
theorem collectNodes_isSome (hp : HilParse) (path : String) :
    ∀ (nodes : List HclNode) (idx : Index), wfNodes nodes = true →
      ∃ idx', collectNodes hp path idx nodes = some idx'
  | [], idx, _ => ⟨idx, rfl⟩
  | n :: rest, idx, h => by
    unfold wfNodes at h
    rw [Bool.and_eq_true] at h
    obtain ⟨mid, hmid⟩ := collectNode_isSome hp path n idx h.1
    obtain ⟨fin, hfin⟩ := collectNodes_isSome hp path rest mid h.2
    refine ⟨fin, ?_⟩
    unfold collectNodes
    rw [hmid]
    exact hfin
end

/-- Supporting totality result: the classification traversal never
crashes on any tree whose items supply the key tokens their keyword
requires (two for variable/module/output, three for resource/data, two
for a provider whose alias extraction succeeds); items with no keys,
non-identifier first tokens or unrecognized keywords are skipped, and
literals never abort. -/
theorem collect_wellformed_total (hp : HilParse) (path : String) (idx : Index)
    (f : HclFile) (raw : Bool) (h : wfNode f.Node = true) :
    (Collect hp idx f path raw).isSome := by
  obtain ⟨mid, hmid⟩ := collectNode_isSome hp path f.Node idx h
  unfold Collect
  rw [hmid]
  rfl

/-- C5: evaluating the traversal at the failing input - the parseable
item `resource "aws_instance" {}` has only two key tokens, and
classifying it indexes the third key out of range, so the traversal
crashes (no resulting Index) instead of degrading to an Error entry or a
skipped item as the claim requires. -/
theorem collect_truncated_resource_crashes :
    Collect c5hil NewIndex c5tree "t.tf" false = none := rfl

/-- Concrete instance of the totality result: a tree whose single item is
not a recognized block keyword is well-formed and its traversal
completes. -/
theorem collect_wellformed_total_witness :
    wfNode w9file.Node = true ∧ (Collect w9hil NewIndex w9file "a.tf" false).isSome :=
  ⟨rfl, collect_wellformed_total w9hil "a.tf" NewIndex w9file false rfl⟩
